import Mathlib

/-!
Shallow embedding of the nuclear-power-plant zero-output tracker
(`npp_zero_tracker.py`): the daily-power ledger, the backward
consecutive-zero-streak walk, the plant-name normalisation, and the
flagged-plant report builder, together with theorems settling the
specification claims about them.

Dates are modelled as integers (days); `d - 1` is the previous day.
The SQLite table `daily_power (d, unit, power_pct)` with primary key
`(d, unit)` is modelled as a list of rows, looked up by key.
-/

namespace NppZero

/-- Row of the parsed snapshot: dataclass `UnitStatus(unit, power_pct)`. -/
structure UnitStatus where
  unit : String
  power_pct : Int
deriving DecidableEq, Repr

/-- Row of the `daily_power` table: columns `d`, `unit`, `power_pct`. -/
structure DailyPower where
  d : Int
  unit : String
  power_pct : Int
deriving DecidableEq, Repr

/-- The ledger: the rows of the `daily_power` table. -/
abbrev Ledger := List DailyPower

/-- Point lookup `SELECT power_pct FROM daily_power WHERE unit = ? AND d = ?`
(the query of `zero_streak_days`, lines 110–113 and 120–123): the stored
`power_pct` for `(unit, date)`, or `none` when no record exists. -/
def power_on (L : Ledger) (u : String) (date : Int) : Option Int :=
  (L.find? (fun e => e.unit == u && e.d == date)).map (fun e => e.power_pct)

/-- One `INSERT OR REPLACE INTO daily_power(d, unit, power_pct)`: the row for
the primary key `(date, u)` is replaced, every other row is kept. -/
def insertOrReplace (L : Ledger) (date : Int) (u : String) (p : Int) : Ledger :=
  ⟨date, u, p⟩ :: L.filter (fun e => !(e.d == date && e.unit == u))

/-- `upsert_day(db_path, d, units)` (lines 91–97): executes one
`INSERT OR REPLACE` per row of the snapshot, in order. -/
def upsert_day (L : Ledger) (date : Int) (R : List UnitStatus) : Ledger :=
  R.foldl (fun acc r => insertOrReplace acc date r.unit r.power_pct) L

/-- Counting helper for the termination measure of the streak walk:
rows of the ledger for unit `u` dated at most `c`. -/
def rowsUpto (L : Ledger) (u : String) (c : Int) : Nat :=
  L.countP (fun e => e.unit == u && decide (e.d ≤ c))

theorem countP_lt_of_witness {α : Type} (l : List α) (p q : α → Bool)
    (himp : ∀ x ∈ l, p x = true → q x = true)
    (x : α) (hx : x ∈ l) (hqx : q x = true) (hpx : p x = false) :
    l.countP p < l.countP q := by
  induction l with
  | nil => cases hx
  | cons a l ih =>
    rcases List.mem_cons.1 hx with rfl | hxl
    · have h1 : l.countP p ≤ l.countP q := by
        apply List.countP_mono_left
        intro y hy hpy
        exact himp y (List.mem_cons_of_mem _ hy) hpy
      simp only [List.countP_cons, hqx, hpx]
      simp only [Bool.false_eq_true, if_false, if_true]
      omega
    · have h1 : l.countP p < l.countP q := by
        apply ih (fun y hy hpy => himp y (List.mem_cons_of_mem _ hy) hpy) hxl
      have h2 : (if p a = true then 1 else 0) ≤ (if q a = true then 1 else 0) := by
        by_cases hpa : p a = true
        · simp [hpa, himp a (List.mem_cons_self a l) hpa]
        · simp [hpa]
      simp only [List.countP_cons]
      omega

theorem power_on_eq_some_zero {L : Ledger} {u : String} {c : Int}
    (h : power_on L u c = some 0) :
    ∃ e ∈ L, e.unit = u ∧ e.d = c ∧ e.power_pct = 0 := by
  unfold power_on at h
  rcases Option.map_eq_some'.1 h with ⟨e, hfind, hp⟩
  have hmem := List.mem_of_find?_eq_some hfind
  have hpred := List.find?_some hfind
  simp only [Bool.and_eq_true, beq_iff_eq] at hpred
  exact ⟨e, hmem, hpred.1, hpred.2, hp⟩

theorem rowsUpto_decreasing {L : Ledger} {u : String} {c : Int}
    (h : power_on L u c = some 0) :
    rowsUpto L u (c - 1) < rowsUpto L u c := by
  rcases power_on_eq_some_zero h with ⟨e, hmem, hu, hd, _⟩
  refine countP_lt_of_witness L _ _ ?_ e hmem ?_ ?_
  · intro x _ hx
    simp only [Bool.and_eq_true, beq_iff_eq, decide_eq_true_eq] at hx ⊢
    exact ⟨hx.1, by omega⟩
  · simp only [Bool.and_eq_true, beq_iff_eq, decide_eq_true_eq]
    exact ⟨hu, le_of_eq hd⟩
  · simp only [Bool.and_eq_false_iff, decide_eq_false_iff_not, not_le]
    right
    omega

/-- The `while True` loop of `zero_streak_days` (lines 117–128): starting at
`cursor_date = c`, count one for each consecutive day whose record exists and
is exactly 0, walking back one day at a time, and stop at the first day whose
record is absent or nonzero. -/
def streakLoop (L : Ledger) (u : String) (c : Int) : Nat :=
  if h : power_on L u c = some 0 then
    streakLoop L u (c - 1) + 1
  else
    0
termination_by rowsUpto L u c
decreasing_by exact rowsUpto_decreasing h

/-- `zero_streak_days(db_path, unit, asof)` (lines 106–128): returns 0 when
the record for `(unit, asof)` is absent or nonzero, otherwise runs the
backward walk from `asof`. -/
def zero_streak_days (L : Ledger) (u : String) (asof : Int) : Nat :=
  if power_on L u asof = some 0 then streakLoop L u asof else 0

theorem streakLoop_eq (L : Ledger) (u : String) (c : Int) :
    streakLoop L u c =
      if power_on L u c = some 0 then streakLoop L u (c - 1) + 1 else 0 := by
  rw [streakLoop]
  split <;> simp_all

theorem streakLoop_spec (L : Ledger) (u : String) (c : Int) :
    (∀ j : Nat, j < streakLoop L u c → power_on L u (c - (j : Int)) = some 0) ∧
    power_on L u (c - (streakLoop L u c : Int)) ≠ some 0 := by
  suffices h : ∀ (n : Nat) (c : Int), rowsUpto L u c ≤ n →
      (∀ j : Nat, j < streakLoop L u c → power_on L u (c - (j : Int)) = some 0) ∧
      power_on L u (c - (streakLoop L u c : Int)) ≠ some 0 from
    h (rowsUpto L u c) c le_rfl
  intro n
  induction n with
  | zero =>
    intro c hc
    rw [streakLoop_eq]
    by_cases h : power_on L u c = some 0
    · exact absurd (rowsUpto_decreasing h) (by omega)
    · rw [if_neg h]
      exact ⟨fun j hj => absurd hj (by omega), by simpa using h⟩
  | succ n ih =>
    intro c hc
    rw [streakLoop_eq]
    by_cases h : power_on L u c = some 0
    · rw [if_pos h]
      have hdec := rowsUpto_decreasing h
      obtain ⟨ih1, ih2⟩ := ih (c - 1) (by omega)
      constructor
      · intro j hj
        cases j with
        | zero => simpa using h
        | succ j' =>
          have hj' : power_on L u (c - 1 - (j' : Int)) = some 0 := ih1 j' (by omega)
          have harith : (c - ((j' : Nat) + 1 : Nat) : Int) = c - 1 - (j' : Int) := by
            push_cast
            ring
          rw [harith]
          exact hj'
      · have harith : (c - ((streakLoop L u (c - 1) + 1 : Nat) : Int)) =
            c - 1 - (streakLoop L u (c - 1) : Int) := by
          push_cast
          ring
        rw [harith]
        exact ih2
    · rw [if_neg h]
      exact ⟨fun j hj => absurd hj (by omega), by simpa using h⟩

/-- Concrete ledger for the gap scenario of the spec: zeros recorded for unit
A on days 0 and 1, no record on day -1. -/
def streakExample : Ledger := [⟨1, "A", 0⟩, ⟨0, "A", 0⟩]

theorem streakExample_loop_m1 : streakLoop streakExample "A" (-1) = 0 := by
  have hm : power_on streakExample "A" (-1) = none := rfl
  rw [streakLoop_eq, hm]
  simp

theorem streakExample_loop_0 : streakLoop streakExample "A" 0 = 1 := by
  have h0 : power_on streakExample "A" 0 = some 0 := rfl
  rw [streakLoop_eq, if_pos h0]
  have : (0 : Int) - 1 = -1 := by norm_num
  rw [this, streakExample_loop_m1]

theorem streakExample_eval : zero_streak_days streakExample "A" 1 = 2 := by
  have h1 : power_on streakExample "A" 1 = some 0 := rfl
  rw [zero_streak_days, if_pos h1, streakLoop_eq, if_pos h1]
  have : (1 : Int) - 1 = 0 := by norm_num
  rw [this, streakExample_loop_0]

theorem zero_streak_days_spec (L : Ledger) (u : String) (asof : Int) :
    (∀ j : Nat, j < zero_streak_days L u asof → power_on L u (asof - (j : Int)) = some 0) ∧
    power_on L u (asof - (zero_streak_days L u asof : Int)) ≠ some 0 := by
  rw [zero_streak_days]
  by_cases h : power_on L u asof = some 0
  · rw [if_pos h]
    exact streakLoop_spec L u asof
  · rw [if_neg h]
    exact ⟨fun j hj => absurd hj (by omega), by simpa using h⟩

/-- C1: for every ledger, unit and as-of date, `zero_streak_days` returns the
number of consecutive days ending at and including `asof` whose record exists
with power exactly 0: every day walked over is a recorded zero, the first day
past the streak is absent or nonzero (so the result is 0 when the `asof`
record itself is absent or nonzero), the count with these two properties is
unique, and in particular zeros on days `d-1` and `d` with no record on `d-2`
give a streak of exactly 2. -/
theorem C1_zero_streak_counts_consecutive_zeros (L : Ledger) (u : String) (asof : Int) :
    (∀ j : Nat, j < zero_streak_days L u asof → power_on L u (asof - (j : Int)) = some 0) ∧
    power_on L u (asof - (zero_streak_days L u asof : Int)) ≠ some 0 ∧
    (∀ k : Nat,
      ((∀ j : Nat, j < k → power_on L u (asof - (j : Int)) = some 0) ∧
        power_on L u (asof - (k : Int)) ≠ some 0) →
      k = zero_streak_days L u asof) ∧
    zero_streak_days streakExample "A" 1 = 2 := by
  have hmain := zero_streak_days_spec L u asof
  refine ⟨hmain.1, hmain.2, ?_, streakExample_eval⟩
  intro k ⟨hk1, hk2⟩
  rcases lt_trichotomy k (zero_streak_days L u asof) with hlt | heq | hgt
  · exact absurd (hmain.1 k hlt) hk2
  · exact heq
  · exact absurd (hk1 _ hgt) hmain.2

theorem find?_filter_of_imp {α : Type} (l : List α) (p q : α → Bool)
    (h : ∀ x, p x = true → q x = true) :
    (l.filter q).find? p = l.find? p := by
  induction l with
  | nil => rfl
  | cons a l ih =>
    by_cases hpa : p a = true
    · rw [List.find?_cons_of_pos l hpa, List.filter_cons_of_pos (h a hpa),
        List.find?_cons_of_pos _ hpa]
    · by_cases hqa : q a = true
      · rw [List.filter_cons_of_pos hqa, List.find?_cons_of_neg _ hpa,
          List.find?_cons_of_neg l hpa, ih]
      · rw [List.filter_cons_of_neg (by simpa using hqa), List.find?_cons_of_neg l hpa, ih]

theorem power_on_insertOrReplace (L : Ledger) (date : Int) (u : String) (p : Int)
    (u' : String) (d' : Int) :
    power_on (insertOrReplace L date u p) u' d' =
      if u' = u ∧ d' = date then some p else power_on L u' d' := by
  unfold power_on insertOrReplace
  by_cases h : u' = u ∧ d' = date
  · obtain ⟨rfl, rfl⟩ := h
    rw [List.find?_cons_of_pos _ (by simp)]
    simp
  · rw [if_neg h, List.find?_cons_of_neg _ (by simp; intro h1 h2; exact h ⟨h1.symm, h2.symm⟩)]
    congr 1
    apply find?_filter_of_imp
    intro x hx
    simp only [Bool.and_eq_true, beq_iff_eq] at hx
    simp only [Bool.not_eq_true', Bool.and_eq_false_iff, beq_eq_false_iff_ne, ne_eq]
    by_cases hd : x.d = date
    · right
      intro hu
      exact h ⟨hx.1 ▸ hu, hx.2 ▸ hd⟩
    · left
      exact hd

/-- Value a unit gets from a snapshot when every row is applied in order with
replacement: the power of the LAST row of `R` carrying that unit label, if
any. -/
def lastPower (R : List UnitStatus) (u : String) : Option Int :=
  match R with
  | [] => none
  | r :: R' =>
    match lastPower R' u with
    | some p => some p
    | none => if r.unit = u then some r.power_pct else none

theorem power_on_upsert_day (L : Ledger) (date : Int) (R : List UnitStatus)
    (u : String) (d' : Int) :
    power_on (upsert_day L date R) u d' =
      if d' = date ∧ (lastPower R u).isSome then lastPower R u
      else power_on L u d' := by
  induction R generalizing L with
  | nil => simp [upsert_day, lastPower]
  | cons r R' ih =>
    have hstep : upsert_day L date (r :: R') =
        upsert_day (insertOrReplace L date r.unit r.power_pct) date R' := rfl
    rw [hstep, ih, power_on_insertOrReplace]
    by_cases hd : d' = date
    · subst hd
      cases hR' : lastPower R' u with
      | some p =>
        have hcons : lastPower (r :: R') u = some p := by
          rw [lastPower, hR']
        rw [hcons]
        simp
      | none =>
        by_cases hu : r.unit = u
        · have hcons : lastPower (r :: R') u = some r.power_pct := by
            rw [lastPower, hR', if_pos hu]
          rw [hcons]
          simp [hu]
        · have hcons : lastPower (r :: R') u = none := by
            rw [lastPower, hR', if_neg hu]
          rw [hcons]
          simp [Ne.symm hu]
    · simp [hd]

/-- C2: `upsert_day` is idempotent — after upserting the same `(date, R)`
twice in a row, every `power_on` lookup (any unit, any date) returns exactly
what it returns after a single upsert. -/
theorem C2_upsert_day_idempotent (L : Ledger) (date : Int) (R : List UnitStatus)
    (u : String) (d' : Int) :
    power_on (upsert_day (upsert_day L date R) date R) u d' =
      power_on (upsert_day L date R) u d' := by
  rw [power_on_upsert_day, power_on_upsert_day]
  split
  · rfl
  · rfl

/-- C7: `upsert_day` touches only the day it is given — for every other date
`d'`, `power_on` (including absence) is identical before and after the call. -/
theorem C7_upsert_day_frame (L : Ledger) (date : Int) (R : List UnitStatus)
    (u : String) (d' : Int) (h : d' ≠ date) :
    power_on (upsert_day L date R) u d' = power_on L u d' := by
  rw [power_on_upsert_day, if_neg (fun hc => h hc.1)]

theorem C7_upsert_day_frame_witness :
    (1 : Int) ≠ (0 : Int) ∧
    power_on (upsert_day [⟨1, "A", 60⟩] 0 [⟨"A", 0⟩]) "A" 1 = power_on [⟨1, "A", 60⟩] "A" 1 :=
  ⟨by decide, C7_upsert_day_frame [⟨1, "A", 60⟩] 0 [⟨"A", 0⟩] "A" 1 (by decide)⟩

theorem lastPower_eq_none_of_not_mem (R : List UnitStatus) (u : String)
    (h : u ∉ R.map UnitStatus.unit) : lastPower R u = none := by
  induction R with
  | nil => rfl
  | cons r R' ih =>
    simp only [List.map_cons, List.mem_cons] at h
    push_neg at h
    rw [lastPower, ih h.2, if_neg (fun hc => h.1 hc.symm)]

/-- Ledger with a record on day 0 and a record on the later day 1, used to
exhibit that re-upserting the earlier day overwrites its record. -/
def backfillExample : Ledger := [⟨0, "A", 50⟩, ⟨1, "A", 60⟩]

/-- C8 counterexample: the ledger `backfillExample` contains a record dated
1, yet calling `upsert_day` for the earlier date 0 with a row for unit A
changes the stored power of `(0, A)` from 50 to 0 — the code does not make
records immutable once a later day has been ingested. -/
theorem C8_backfill_counterexample :
    (∃ e ∈ backfillExample, e.d = 1) ∧
    power_on backfillExample "A" 0 = some 50 ∧
    power_on (upsert_day backfillExample 0 [⟨"A", 0⟩]) "A" 0 = some 0 := by
  refine ⟨⟨⟨1, "A", 60⟩, by decide, rfl⟩, rfl, rfl⟩

/-- C8 amended: `upsert_day(d, R)` preserves the stored power of every record
whose date differs from `d` or whose unit does not occur in `R`; nothing in
the code prevents overwriting an earlier day's record for a unit that does
occur in `R`, so the no-backfill lifecycle is an operational assumption (the
pipeline only ever upserts the current report date), not a property the
ledger enforces. -/
theorem C8_upsert_day_preserves_unmentioned (L : Ledger) (date : Int)
    (R : List UnitStatus) (u : String) (d' : Int)
    (h : d' ≠ date ∨ u ∉ R.map UnitStatus.unit) :
    power_on (upsert_day L date R) u d' = power_on L u d' := by
  rcases h with h | h
  · rw [power_on_upsert_day, if_neg (fun hc => h hc.1)]
  · rw [power_on_upsert_day, lastPower_eq_none_of_not_mem R u h]
    simp

theorem C8_upsert_day_preserves_unmentioned_witness :
    ((0 : Int) ≠ (0 : Int) ∨ "B" ∉ ([⟨"A", 0⟩] : List UnitStatus).map UnitStatus.unit) ∧
    power_on (upsert_day backfillExample 0 [⟨"A", 0⟩]) "B" 0 = power_on backfillExample "B" 0 :=
  ⟨by decide,
    C8_upsert_day_preserves_unmentioned backfillExample 0 [⟨"A", 0⟩] "B" 0 (by decide)⟩

/-- De-duplication pass of `parse_units_from_html` (lines 61–69): keeps the
first occurrence of each `(unit, power_pct)` key, tracking seen keys. -/
def dedupUnitsAux (seen : List (String × Int)) : List UnitStatus → List UnitStatus
  | [] => []
  | x :: xs =>
    if (x.unit, x.power_pct) ∈ seen then dedupUnitsAux seen xs
    else x :: dedupUnitsAux ((x.unit, x.power_pct) :: seen) xs

/-- Tail of `parse_units_from_html` (lines 61–74): de-duplicate the extracted
unit rows, then fail hard when no rows remain — the only empty-snapshot guard
in the program. -/
def finalizeParse (units : List UnitStatus) : Except String (List UnitStatus) :=
  let deduped := dedupUnitsAux [] units
  if deduped.isEmpty then
    Except.error "Parsed zero unit rows from NRC page—page structure may have changed."
  else
    Except.ok deduped

/-- C5 counterexample: `upsert_day` called with an empty record sequence does
not fail — it returns normally (it executes zero inserts, raising nothing)
and yields the ledger unchanged, here at the concrete one-row ledger. -/
theorem C5_empty_upsert_counterexample :
    upsert_day [⟨0, "A", 50⟩] 1 [] = [⟨0, "A", 50⟩] := rfl

/-- C5 amended: `upsert_day(d, [])` returns normally and leaves the ledger
unchanged; the empty-snapshot hard failure lives upstream in
`parse_units_from_html`, which errors when zero unit rows survive
de-duplication, so in the pipeline an empty snapshot aborts the run before
`upsert_day` and is never silently recorded. -/
theorem C5_empty_snapshot_guard :
    (∀ (L : Ledger) (date : Int), upsert_day L date [] = L) ∧
    finalizeParse [] =
      Except.error "Parsed zero unit rows from NRC page—page structure may have changed." :=
  ⟨fun _ _ => rfl, rfl⟩

/-- Earliest day carrying any record of the ledger, `none` for an empty
ledger. -/
def minDate (L : Ledger) : Option Int :=
  L.foldl
    (fun acc e =>
      match acc with
      | none => some e.d
      | some m => some (min m e.d))
    none

theorem minDate_foldl_le (L : Ledger) : ∀ (acc : Option Int) (m : Int),
    L.foldl
      (fun acc e =>
        match acc with
        | none => some e.d
        | some m => some (min m e.d))
      acc = some m →
    (∀ a, acc = some a → m ≤ a) ∧ ∀ e ∈ L, m ≤ e.d := by
  induction L with
  | nil =>
    intro acc m h
    simp only [List.foldl_nil] at h
    subst h
    exact ⟨fun a ha => le_of_eq (Option.some_injective _ ha), fun e he => absurd he (by simp)⟩
  | cons x L ih =>
    intro acc m h
    simp only [List.foldl_cons] at h
    obtain ⟨hacc, hrest⟩ := ih _ m h
    constructor
    · intro a ha
      subst ha
      have := hacc (min a x.d) rfl
      omega
    · intro e he
      rcases List.mem_cons.1 he with rfl | he'
      · cases acc with
        | none =>
          have := hacc e.d rfl
          omega
        | some a =>
          have := hacc (min a e.d) rfl
          omega
      · exact hrest e he'

theorem minDate_le_of_mem {L : Ledger} {m : Int} (hm : minDate L = some m) :
    ∀ e ∈ L, m ≤ e.d :=
  (minDate_foldl_le L none m hm).2

/-- C9: the backward streak walk is a total function of the finite ledger and
stops at the first missing-or-nonzero day, which occurs at or before the
ledger's earliest recorded day: the day the walk stops on has no zero record,
and the streak never reaches further back than one day before the earliest
record (`asof - streak ≥ m - 1`, stated as a bound through `max` so that it
also covers a streak of 0). -/
theorem C9_streak_walk_terminates (L : Ledger) (u : String) (asof m : Int)
    (hm : minDate L = some m) :
    power_on L u (asof - (zero_streak_days L u asof : Int)) ≠ some 0 ∧
    (zero_streak_days L u asof : Int) ≤ max (asof - m + 1) 0 := by
  obtain ⟨hall, hstop⟩ := zero_streak_days_spec L u asof
  refine ⟨hstop, ?_⟩
  cases hz : zero_streak_days L u asof with
  | zero =>
    simp only [Nat.cast_zero]
    exact le_max_right (asof - m + 1) 0
  | succ k =>
    have hlast : power_on L u (asof - (k : Int)) = some 0 := hall k (by omega)
    obtain ⟨e, heL, _, hed, _⟩ := power_on_eq_some_zero hlast
    have hmin : m ≤ e.d := minDate_le_of_mem hm e heL
    have hbound : ((k + 1 : Nat) : Int) ≤ asof - m + 1 := by
      push_cast
      omega
    exact le_trans hbound (le_max_left _ _)

theorem C9_streak_walk_terminates_witness :
    minDate streakExample = some 0 ∧
    (power_on streakExample "A" (1 - (zero_streak_days streakExample "A" 1 : Int)) ≠ some 0 ∧
      (zero_streak_days streakExample "A" 1 : Int) ≤ max (1 - 0 + 1) 0) :=
  ⟨rfl, C9_streak_walk_terminates streakExample "A" 1 0 rfl⟩

/-- Python regex class `\s` for str patterns: the full Unicode whitespace
set Python matches — `0x09`–`0x0D`, `0x1C`–`0x1F`, space, `0x85`, `0xA0`,
`0x1680`, `0x2000`–`0x200A`, `0x2028`, `0x2029`, `0x202F`, `0x205F`,
`0x3000`. -/
def isPySpace (c : Char) : Bool :=
  let n := c.toNat
  (decide (0x09 ≤ n) && decide (n ≤ 0x0D)) ||
    (decide (0x1C ≤ n) && decide (n ≤ 0x1F)) ||
    n == 0x20 || n == 0x85 || n == 0xA0 || n == 0x1680 ||
    (decide (0x2000 ≤ n) && decide (n ≤ 0x200A)) ||
    n == 0x2028 || n == 0x2029 || n == 0x202F || n == 0x205F || n == 0x3000

/-- Core of the first alternative of `PLANT_CLEAN_RE`, `\s+\d+`, matched
against an entire remainder: one or more whitespace characters followed by
one or more digits, nothing after. Digits are modelled over the ASCII range
(`\d` is Unicode decimal digits in Python; the C6 theorem is scoped to
ASCII labels, where the two coincide). -/
def matchSpaceDigits : List Char → Bool
  | [] => false
  | c :: rest =>
    isPySpace c &&
      (let ds := rest.dropWhile isPySpace
       !ds.isEmpty && ds.all Char.isDigit)

/-- Core of the second alternative of `PLANT_CLEAN_RE`, `\s*Unit\s*\d+` with
`re.IGNORECASE`, matched against an entire remainder: optional whitespace,
the word `Unit` in any case, optional whitespace, one or more digits,
nothing after. -/
def matchUnitNum (cs : List Char) : Bool :=
  match cs.dropWhile isPySpace with
  | u :: n :: i :: t :: rest =>
    (u == 'U' || u == 'u') && (n == 'N' || n == 'n') &&
      (i == 'I' || i == 'i') && (t == 'T' || t == 't') &&
      (let ds := rest.dropWhile isPySpace
       !ds.isEmpty && ds.all Char.isDigit)
  | _ => false

/-- One anchored alternative of `PLANT_CLEAN_RE` matches at the start of the
given remainder: Python's `$` (no `re.MULTILINE`) succeeds at the absolute
end of the string or just before a single trailing newline, so either a core
consumes the whole remainder, or the remainder is a core followed by one
final `\n`. -/
def suffixMatch (cs : List Char) : Bool :=
  (matchSpaceDigits cs || matchUnitNum cs) ||
    (cs.getLast? == some '\n' &&
      (matchSpaceDigits cs.dropLast || matchUnitNum cs.dropLast))

/-- `PLANT_CLEAN_RE.sub("", name)`: both alternatives are anchored by `$`,
so the substitution removes the span starting at the leftmost position where
either alternative matches up to the end of the string or up to a single
trailing newline; in the latter case the newline itself is outside the match
and survives the substitution. No position matching leaves the string
unchanged. -/
def stripUnitSuffix : List Char → List Char
  | [] => []
  | c :: cs =>
    if matchSpaceDigits (c :: cs) || matchUnitNum (c :: cs) then []
    else
      if (c :: cs).getLast? == some '\n' &&
          (matchSpaceDigits (c :: cs).dropLast || matchUnitNum (c :: cs).dropLast) then
        ['\n']
      else c :: stripUnitSuffix cs

/-- Python `str.strip()`: surrounding whitespace removed on both ends. -/
def pyStrip (cs : List Char) : List Char :=
  ((cs.dropWhile isPySpace).reverse.dropWhile isPySpace).reverse

/-- `plant_name_from_unit(unit_name)` (lines 131–135):
`PLANT_CLEAN_RE.sub("", unit_name).strip()`. -/
def plant_name_from_unit (s : String) : String :=
  String.mk (pyStrip (stripUnitSuffix s.data))

theorem stripUnitSuffix_eq_self (s : List Char)
    (h : ∀ i, i ≤ s.length → suffixMatch (s.drop i) = false) :
    stripUnitSuffix s = s := by
  induction s with
  | nil => rfl
  | cons c cs ih =>
    have h0 := h 0 (by omega)
    simp only [List.drop_zero, suffixMatch] at h0
    obtain ⟨h1, h2⟩ := Bool.or_eq_false_iff.1 h0
    rw [stripUnitSuffix, h1, h2]
    simp only [Bool.false_eq_true, if_false, List.cons.injEq, true_and]
    apply ih
    intro i hi
    have hnext := h (i + 1) (by simpa using hi)
    simpa using hnext

/-- C6 counterexample: a label carrying surrounding whitespace but neither
trailing suffix is NOT returned unchanged — `plant_name_from_unit` always
trims, so `" Palo Verde"` comes back as `"Palo Verde"`. -/
theorem C6_untrimmed_label_counterexample :
    plant_name_from_unit " Palo Verde" ≠ " Palo Verde" ∧
    plant_name_from_unit " Palo Verde" = "Palo Verde" := by
  constructor
  · decide
  · rfl

/-- C6 amended: `plant_name_from_unit` strips the single span found at the
leftmost position where a trailing run of whitespace+digits or a trailing
case-insensitive `Unit <digits>` phrase matches up to the end of the label
or up to a single trailing newline (Python `$`), and trims surrounding
whitespace from the result; an ASCII label (the domain on which the modelled
character classes coincide with Python's Unicode `\s` and `\d`) with neither
suffix is returned with only its surrounding whitespace trimmed (hence
unchanged when already trimmed). In particular `"Browns Ferry Unit 3"` gives
`"Browns Ferry"`, `"Diablo Canyon 2"` gives `"Diablo Canyon"`,
`"Palo Verde"` is returned unchanged, and a suffix just before a trailing
newline is stripped too. -/
theorem C6_plant_name_normalisation (s : List Char)
    (hascii : ∀ c ∈ s, c.toNat < 128)
    (h : ∀ i, i ≤ s.length → suffixMatch (s.drop i) = false) :
    plant_name_from_unit (String.mk s) = String.mk (pyStrip s) ∧
    plant_name_from_unit "Browns Ferry Unit 3" = "Browns Ferry" ∧
    plant_name_from_unit "Diablo Canyon 2" = "Diablo Canyon" ∧
    plant_name_from_unit "Palo Verde" = "Palo Verde" ∧
    plant_name_from_unit "Palo Verde 3\n" = "Palo Verde" := by
  refine ⟨?_, rfl, rfl, rfl, rfl⟩
  unfold plant_name_from_unit
  rw [show (String.mk s).data = s from rfl, stripUnitSuffix_eq_self s h]

theorem C6_plant_name_normalisation_witness :
    (∀ c ∈ "Oconee".data, c.toNat < 128) ∧
    (∀ i, i ≤ ("Oconee".data).length → suffixMatch (("Oconee".data).drop i) = false) ∧
    (plant_name_from_unit (String.mk "Oconee".data) = String.mk (pyStrip "Oconee".data) ∧
      plant_name_from_unit "Browns Ferry Unit 3" = "Browns Ferry" ∧
      plant_name_from_unit "Diablo Canyon 2" = "Diablo Canyon" ∧
      plant_name_from_unit "Palo Verde" = "Palo Verde" ∧
      plant_name_from_unit "Palo Verde 3\n" = "Palo Verde") :=
  ⟨by decide, by decide, C6_plant_name_normalisation "Oconee".data (by decide) (by decide)⟩

/-- Iteration order of a Python dict keyed by plant: first occurrence of each
key, duplicates dropped. -/
def dedupFirstAux (seen : List String) : List String → List String
  | [] => []
  | x :: xs =>
    if x ∈ seen then dedupFirstAux seen xs
    else x :: dedupFirstAux (x :: seen) xs

/-- Keys of `plant_max` (lines 152–157): the distinct plant names derived
from the unit labels of the streak map, in first-appearance order. -/
def plantsOf (streaks : List (String × Nat)) : List String :=
  dedupFirstAux [] (streaks.map (fun r => plant_name_from_unit r.1))

/-- `plant_units[plant]` (line 156): the `(unit, streak)` pairs of the units
whose label normalises to `plant`, in input order. -/
def plantUnits (streaks : List (String × Nat)) (p : String) : List (String × Nat) :=
  streaks.filter (fun r => plant_name_from_unit r.1 == p)

/-- `plant_max[plant]` (line 157): running maximum of the streaks of the
plant's units, starting from 0. -/
def plantMax (streaks : List (String × Nat)) (p : String) : Nat :=
  ((plantUnits streaks p).map Prod.snd).foldl Nat.max 0

/-- Entry `{"unit": u, "zero_days": s}` of a flagged plant's unit list. -/
structure UnitEntry where
  unit : String
  zero_days : Nat
deriving DecidableEq, Repr

/-- Entry `{"plant": ..., "max_zero_days": ..., "units": [...]}` of the
flagged list. -/
structure PlantEntry where
  plant : String
  max_zero_days : Nat
  units : List UnitEntry
deriving DecidableEq, Repr

/-- Sort key `(-zero_days, unit)` of line 165, as a relation: streak
descending, then unit label ascending. -/
def unitOrd (a b : UnitEntry) : Prop :=
  b.zero_days < a.zero_days ∨ (a.zero_days = b.zero_days ∧ a.unit ≤ b.unit)

/-- Sort key `(-max_zero_days, plant)` of line 171, as a relation: maximum
streak descending, then plant name ascending. -/
def plantOrd (a b : PlantEntry) : Prop :=
  b.max_zero_days < a.max_zero_days ∨ (a.max_zero_days = b.max_zero_days ∧ a.plant ≤ b.plant)

instance : DecidableRel unitOrd := fun a b => by
  unfold unitOrd
  infer_instance

instance : DecidableRel plantOrd := fun a b => by
  unfold plantOrd
  infer_instance

instance : IsTotal UnitEntry unitOrd where
  total a b := by
    unfold unitOrd
    rcases Nat.lt_trichotomy a.zero_days b.zero_days with h | h | h
    · exact Or.inr (Or.inl h)
    · rcases le_total a.unit b.unit with hu | hu
      · exact Or.inl (Or.inr ⟨h, hu⟩)
      · exact Or.inr (Or.inr ⟨h.symm, hu⟩)
    · exact Or.inl (Or.inl h)

instance : IsTrans UnitEntry unitOrd where
  trans a b c hab hbc := by
    unfold unitOrd at hab hbc ⊢
    rcases hab with h1 | ⟨h1, h1u⟩ <;> rcases hbc with h2 | ⟨h2, h2u⟩
    · exact Or.inl (by omega)
    · exact Or.inl (by omega)
    · exact Or.inl (by omega)
    · exact Or.inr ⟨by omega, le_trans h1u h2u⟩

instance : IsTotal PlantEntry plantOrd where
  total a b := by
    unfold plantOrd
    rcases Nat.lt_trichotomy a.max_zero_days b.max_zero_days with h | h | h
    · exact Or.inr (Or.inl h)
    · rcases le_total a.plant b.plant with hu | hu
      · exact Or.inl (Or.inr ⟨h, hu⟩)
      · exact Or.inr (Or.inr ⟨h.symm, hu⟩)
    · exact Or.inl (Or.inl h)

instance : IsTrans PlantEntry plantOrd where
  trans a b c hab hbc := by
    unfold plantOrd at hab hbc ⊢
    rcases hab with h1 | ⟨h1, h1u⟩ <;> rcases hbc with h2 | ⟨h2, h2u⟩
    · exact Or.inl (by omega)
    · exact Or.inl (by omega)
    · exact Or.inl (by omega)
    · exact Or.inr ⟨by omega, le_trans h1u h2u⟩

/-- Entry built for one flagged plant (lines 160–167): its name, its maximum
unit streak, and its units with nonzero streak sorted by `(-zero_days, unit)`. -/
def flagEntry (streaks : List (String × Nat)) (p : String) : PlantEntry where
  plant := p
  max_zero_days := plantMax streaks p
  units :=
    List.insertionSort unitOrd
      (((plantUnits streaks p).filter (fun r => decide (0 < r.2))).map
        (fun r => UnitEntry.mk r.1 r.2))

/-- The `flagged` construction of `main` (lines 159–171): one entry per
distinct plant whose maximum unit streak strictly exceeds the threshold, the
whole list sorted by `(-max_zero_days, plant)`. -/
def build_flagged (threshold : Int) (streaks : List (String × Nat)) : List PlantEntry :=
  List.insertionSort plantOrd
    (((plantsOf streaks).filter
        (fun p => decide (threshold < (plantMax streaks p : Int)))).map
      (flagEntry streaks))

theorem mem_dedupFirstAux (l : List String) : ∀ (seen : List String) (x : String),
    (x ∈ dedupFirstAux seen l ↔ x ∈ l ∧ x ∉ seen) := by
  induction l with
  | nil => simp [dedupFirstAux]
  | cons a l ih =>
    intro seen x
    rw [dedupFirstAux]
    by_cases ha : a ∈ seen
    · rw [if_pos ha, ih]
      constructor
      · exact fun ⟨h1, h2⟩ => ⟨List.mem_cons_of_mem _ h1, h2⟩
      · rintro ⟨h1, h2⟩
        rcases List.mem_cons.1 h1 with rfl | h1'
        · exact absurd ha h2
        · exact ⟨h1', h2⟩
    · rw [if_neg ha]
      constructor
      · intro hx
        rcases List.mem_cons.1 hx with rfl | hx'
        · exact ⟨List.mem_cons_self _ _, ha⟩
        · obtain ⟨h1, h2⟩ := (ih _ _).1 hx'
          refine ⟨List.mem_cons_of_mem _ h1, ?_⟩
          intro hc
          exact h2 (List.mem_cons_of_mem _ hc)
      · rintro ⟨h1, h2⟩
        rcases List.mem_cons.1 h1 with rfl | h1'
        · exact List.mem_cons_self _ _
        · by_cases hxa : x = a
          · subst hxa
            exact List.mem_cons_self _ _
          · refine List.mem_cons_of_mem _ ((ih _ _).2 ⟨h1', ?_⟩)
            intro hc
            rcases List.mem_cons.1 hc with h | h
            · exact hxa h
            · exact h2 h

theorem nodup_dedupFirstAux (l : List String) : ∀ seen, (dedupFirstAux seen l).Nodup := by
  induction l with
  | nil => intro seen; simp [dedupFirstAux]
  | cons a l ih =>
    intro seen
    rw [dedupFirstAux]
    by_cases ha : a ∈ seen
    · rw [if_pos ha]
      exact ih seen
    · rw [if_neg ha]
      refine List.nodup_cons.2 ⟨?_, ih _⟩
      intro hc
      exact ((mem_dedupFirstAux l _ a).1 hc).2 (List.mem_cons_self _ _)

theorem mem_plantsOf (streaks : List (String × Nat)) (p : String) :
    p ∈ plantsOf streaks ↔ ∃ r ∈ streaks, plant_name_from_unit r.1 = p := by
  rw [plantsOf, mem_dedupFirstAux]
  simp

theorem nodup_plantsOf (streaks : List (String × Nat)) : (plantsOf streaks).Nodup :=
  nodup_dedupFirstAux _ []

theorem foldl_max_ge_init (l : List Nat) : ∀ a : Nat, a ≤ l.foldl Nat.max a := by
  induction l with
  | nil => intro a; simp
  | cons x l ih =>
    intro a
    simp only [List.foldl_cons]
    exact le_trans (Nat.le_max_left a x) (ih (Nat.max a x))

theorem foldl_max_ge_mem (l : List Nat) : ∀ (a x : Nat), x ∈ l → x ≤ l.foldl Nat.max a := by
  induction l with
  | nil => intro a x hx; cases hx
  | cons y l ih =>
    intro a x hx
    rcases List.mem_cons.1 hx with rfl | hx'
    · simp only [List.foldl_cons]
      exact le_trans (Nat.le_max_right a x) (foldl_max_ge_init l (Nat.max a x))
    · exact ih _ x hx'

theorem foldl_max_eq_init_or_mem (l : List Nat) :
    ∀ a : Nat, l.foldl Nat.max a = a ∨ l.foldl Nat.max a ∈ l := by
  induction l with
  | nil => intro a; simp
  | cons x l ih =>
    intro a
    simp only [List.foldl_cons]
    rcases ih (Nat.max a x) with h | h
    · rcases Nat.le_total a x with hax | hax
      · right
        have hx : Nat.max a x = x := Nat.max_eq_right hax
        rw [h, hx]
        exact List.mem_cons_self _ _
      · left
        have hx : Nat.max a x = a := Nat.max_eq_left hax
        rw [h, hx]
    · right
      exact List.mem_cons_of_mem _ h

theorem pairwise_ne_of_nodup_map {α β : Type} (f : α → β) (l : List α)
    (h : (l.map f).Nodup) : l.Pairwise (fun a b => f a ≠ f b) := by
  induction l with
  | nil => exact List.Pairwise.nil
  | cons a l ih =>
    simp only [List.map_cons, List.nodup_cons] at h
    refine List.Pairwise.cons ?_ (ih h.2)
    intro b hb heq
    exact h.1 (heq ▸ List.mem_map_of_mem f hb)

theorem mem_build_flagged (t : Int) (streaks : List (String × Nat)) (e : PlantEntry) :
    e ∈ build_flagged t streaks ↔
      ∃ p, p ∈ plantsOf streaks ∧ t < (plantMax streaks p : Int) ∧ e = flagEntry streaks p := by
  rw [build_flagged, (List.perm_insertionSort plantOrd _).mem_iff]
  simp only [List.mem_map, List.mem_filter, decide_eq_true_eq]
  constructor
  · rintro ⟨p, ⟨hp, hcond⟩, rfl⟩
    exact ⟨p, hp, hcond, rfl⟩
  · rintro ⟨p, hp, hcond, rfl⟩
    exact ⟨p, ⟨hp, hcond⟩, rfl⟩

theorem mem_units_flagEntry (streaks : List (String × Nat)) (p : String)
    (u : String) (z : Nat) :
    UnitEntry.mk u z ∈ (flagEntry streaks p).units ↔
      (u, z) ∈ streaks ∧ plant_name_from_unit u = p ∧ 0 < z := by
  rw [flagEntry]
  simp only [(List.perm_insertionSort unitOrd _).mem_iff, List.mem_map, List.mem_filter,
    plantUnits, decide_eq_true_eq, beq_iff_eq]
  constructor
  · rintro ⟨r, ⟨⟨hr, hrp⟩, hrz⟩, hmk⟩
    obtain ⟨h1, h2⟩ : r.1 = u ∧ r.2 = z := by
      injection hmk with ha hb
      exact ⟨ha, hb⟩
    refine ⟨?_, ?_, ?_⟩
    · rw [← h1, ← h2]
      exact (Prod.mk.eta ▸ hr)
    · rw [← h1]
      exact hrp
    · omega
  · rintro ⟨hmem, hp, hz⟩
    exact ⟨(u, z), ⟨⟨hmem, hp⟩, hz⟩, rfl⟩

/-- C3: the flagging threshold is strict — a plant appears in the flagged
report exactly when some unit of the streak map normalises to it and its
maximum unit streak strictly exceeds the threshold; concretely, a plant
whose maximum equals the threshold 40 is absent, and with one more day it
appears. -/
theorem C3_threshold_is_strict (streaks : List (String × Nat)) (t : Int) (p : String) :
    ((∃ e ∈ build_flagged t streaks, e.plant = p) ↔
      ((∃ r ∈ streaks, plant_name_from_unit r.1 = p) ∧ t < (plantMax streaks p : Int))) ∧
    build_flagged 40 [("Alpha Unit 1", 40)] = [] ∧
    (build_flagged 40 [("Alpha Unit 1", 41)]).map PlantEntry.plant = ["Alpha"] := by
  refine ⟨⟨?_, ?_⟩, by decide, by decide⟩
  · rintro ⟨e, he, rfl⟩
    obtain ⟨q, hq, hcond, rfl⟩ := (mem_build_flagged t streaks e).1 he
    exact ⟨(mem_plantsOf streaks q).1 hq, hcond⟩
  · rintro ⟨hmem, hcond⟩
    exact ⟨flagEntry streaks p,
      (mem_build_flagged t streaks _).2 ⟨p, (mem_plantsOf streaks p).2 hmem, hcond, rfl⟩, rfl⟩

/-- C4: the report is deterministically ordered and filtered — the flagged
entries are strictly sorted by maximum streak descending then plant name
ascending, and each entry's unit list is strictly sorted by streak descending
then unit label ascending and contains exactly the streak map's units that
normalise to the plant and have nonzero streak. -/
theorem C4_report_deterministic_order (streaks : List (String × Nat)) (t : Int)
    (hkeys : (streaks.map Prod.fst).Nodup) :
    (build_flagged t streaks).Pairwise
      (fun a b => b.max_zero_days < a.max_zero_days ∨
        (a.max_zero_days = b.max_zero_days ∧ a.plant < b.plant)) ∧
    ∀ e ∈ build_flagged t streaks,
      e.units.Pairwise
        (fun a b => b.zero_days < a.zero_days ∨
          (a.zero_days = b.zero_days ∧ a.unit < b.unit)) ∧
      ∀ u z, (UnitEntry.mk u z ∈ e.units ↔
        ((u, z) ∈ streaks ∧ plant_name_from_unit u = e.plant ∧ 0 < z)) := by
  constructor
  · have hsorted : (build_flagged t streaks).Pairwise plantOrd := by
      rw [build_flagged]
      exact List.sorted_insertionSort plantOrd _
    have hperm : (build_flagged t streaks).Perm
        (((plantsOf streaks).filter
            (fun p => decide (t < (plantMax streaks p : Int)))).map (flagEntry streaks)) := by
      rw [build_flagged]
      exact List.perm_insertionSort plantOrd _
    have hmap : ((((plantsOf streaks).filter
          (fun p => decide (t < (plantMax streaks p : Int)))).map
            (flagEntry streaks)).map PlantEntry.plant) =
        (plantsOf streaks).filter (fun p => decide (t < (plantMax streaks p : Int))) := by
      rw [List.map_map]
      have hcomp : PlantEntry.plant ∘ flagEntry streaks = id := funext fun p => rfl
      rw [hcomp, List.map_id]
    have hnd : ((build_flagged t streaks).map PlantEntry.plant).Nodup := by
      refine (List.Perm.nodup_iff (List.Perm.map PlantEntry.plant hperm)).2 ?_
      rw [hmap]
      exact (nodup_plantsOf streaks).filter _
    have hne := pairwise_ne_of_nodup_map PlantEntry.plant _ hnd
    refine (hsorted.and hne).imp ?_
    rintro a b ⟨hord, hab⟩
    rcases hord with h | ⟨h1, h2⟩
    · exact Or.inl h
    · exact Or.inr ⟨h1, lt_of_le_of_ne h2 hab⟩
  · intro e he
    obtain ⟨p, _, _, rfl⟩ := (mem_build_flagged t streaks e).1 he
    have hunits_eq : (flagEntry streaks p).units =
        List.insertionSort unitOrd
          (((plantUnits streaks p).filter (fun r => decide (0 < r.2))).map
            (fun r => UnitEntry.mk r.1 r.2)) := rfl
    constructor
    · have hsorted : ((flagEntry streaks p).units).Pairwise unitOrd := by
        rw [hunits_eq]
        exact List.sorted_insertionSort unitOrd _
      have hperm : ((flagEntry streaks p).units).Perm
          (((plantUnits streaks p).filter (fun r => decide (0 < r.2))).map
            (fun r => UnitEntry.mk r.1 r.2)) := by
        rw [hunits_eq]
        exact List.perm_insertionSort unitOrd _
      have hmap : ((((plantUnits streaks p).filter (fun r => decide (0 < r.2))).map
            (fun r => UnitEntry.mk r.1 r.2)).map UnitEntry.unit) =
          ((plantUnits streaks p).filter (fun r => decide (0 < r.2))).map Prod.fst := by
        rw [List.map_map]
        rfl
      have hsub : ((plantUnits streaks p).filter (fun r => decide (0 < r.2))).Sublist streaks :=
        (List.filter_sublist _).trans (List.filter_sublist _)
      have hnd : (((flagEntry streaks p).units).map UnitEntry.unit).Nodup := by
        refine (List.Perm.nodup_iff (List.Perm.map UnitEntry.unit hperm)).2 ?_
        rw [hmap]
        exact (hsub.map Prod.fst).nodup hkeys
      have hne := pairwise_ne_of_nodup_map UnitEntry.unit _ hnd
      refine (hsorted.and hne).imp ?_
      rintro a b ⟨hord, hab⟩
      rcases hord with h | ⟨h1, h2⟩
      · exact Or.inl h
      · exact Or.inr ⟨h1, lt_of_le_of_ne h2 hab⟩
    · intro u z
      exact mem_units_flagEntry streaks p u z

theorem C4_report_deterministic_order_witness :
    (([("Alpha Unit 1", 45), ("Alpha Unit 2", 0), ("Beta Unit 1", 10)].map
        (Prod.fst (α := String) (β := Nat))).Nodup) ∧
    ((build_flagged 40 [("Alpha Unit 1", 45), ("Alpha Unit 2", 0), ("Beta Unit 1", 10)]).Pairwise
      (fun a b => b.max_zero_days < a.max_zero_days ∨
        (a.max_zero_days = b.max_zero_days ∧ a.plant < b.plant)) ∧
    ∀ e ∈ build_flagged 40 [("Alpha Unit 1", 45), ("Alpha Unit 2", 0), ("Beta Unit 1", 10)],
      e.units.Pairwise
        (fun a b => b.zero_days < a.zero_days ∨
          (a.zero_days = b.zero_days ∧ a.unit < b.unit)) ∧
      ∀ u z, (UnitEntry.mk u z ∈ e.units ↔
        ((u, z) ∈ [("Alpha Unit 1", 45), ("Alpha Unit 2", 0), ("Beta Unit 1", 10)] ∧
          plant_name_from_unit u = e.plant ∧ 0 < z))) :=
  ⟨by decide,
    C4_report_deterministic_order [("Alpha Unit 1", 45), ("Alpha Unit 2", 0), ("Beta Unit 1", 10)]
      40 (by decide)⟩

/-- C10: with a nonnegative threshold, every flagged plant entry has a
non-empty unit list whose first entry attains the plant's `max_zero_days`. -/
theorem C10_first_unit_attains_max (streaks : List (String × Nat)) (t : Int)
    (e : PlantEntry) (ht : 0 ≤ t) (he : e ∈ build_flagged t streaks) :
    ∃ u rest, e.units = u :: rest ∧ u.zero_days = e.max_zero_days := by
  obtain ⟨p, _, hcond, rfl⟩ := (mem_build_flagged t streaks e).1 he
  have hpos : 0 < plantMax streaks p := by omega
  have hunits_eq : (flagEntry streaks p).units =
      List.insertionSort unitOrd
        (((plantUnits streaks p).filter (fun r => decide (0 < r.2))).map
          (fun r => UnitEntry.mk r.1 r.2)) := rfl
  have hperm : ((flagEntry streaks p).units).Perm
      (((plantUnits streaks p).filter (fun r => decide (0 < r.2))).map
        (fun r => UnitEntry.mk r.1 r.2)) := by
    rw [hunits_eq]
    exact List.perm_insertionSort unitOrd _
  have hmax_bound : ∀ v ∈ (flagEntry streaks p).units, v.zero_days ≤ plantMax streaks p := by
    intro v hv
    obtain ⟨r, hr, hmk⟩ := List.mem_map.1 (hperm.mem_iff.1 hv)
    have hr_bucket : r ∈ plantUnits streaks p := (List.mem_filter.1 hr).1
    have hsnd : r.2 ∈ (plantUnits streaks p).map Prod.snd := List.mem_map_of_mem Prod.snd hr_bucket
    have hle : r.2 ≤ plantMax streaks p :=
      foldl_max_ge_mem ((plantUnits streaks p).map Prod.snd) 0 r.2 hsnd
    rw [← hmk]
    exact hle
  rcases foldl_max_eq_init_or_mem ((plantUnits streaks p).map Prod.snd) 0 with h0 | hmem
  · exact absurd h0 (by rw [plantMax] at hpos; omega)
  · obtain ⟨r, hr, hr2⟩ := List.mem_map.1 hmem
    have hrmax : r.2 = plantMax streaks p := hr2
    have hu1 : UnitEntry.mk r.1 r.2 ∈ (flagEntry streaks p).units := by
      refine hperm.mem_iff.2 (List.mem_map_of_mem _ (List.mem_filter.2 ⟨hr, ?_⟩))
      simp only [decide_eq_true_eq]
      omega
    cases hunits : (flagEntry streaks p).units with
    | nil =>
      rw [hunits] at hu1
      cases hu1
    | cons u rest =>
      refine ⟨u, rest, rfl, ?_⟩
      have hz : (UnitEntry.mk r.1 r.2).zero_days = r.2 := rfl
      have hu_le : u.zero_days ≤ plantMax streaks p := by
        apply hmax_bound
        rw [hunits]
        exact List.mem_cons_self _ _
      have hge : plantMax streaks p ≤ u.zero_days := by
        rw [hunits] at hu1
        rcases List.mem_cons.1 hu1 with heq | hmem_rest
        · rw [← heq]
          omega
        · have hsorted : ((flagEntry streaks p).units).Pairwise unitOrd := by
            rw [hunits_eq]
            exact List.sorted_insertionSort unitOrd _
          rw [hunits] at hsorted
          have hord := (List.pairwise_cons.1 hsorted).1 _ hmem_rest
          rcases hord with h | ⟨h, _⟩ <;> omega
      show u.zero_days = plantMax streaks p
      omega

theorem C10_first_unit_attains_max_witness :
    ((0 : Int) ≤ 0 ∧
      PlantEntry.mk "Alpha" 1 [UnitEntry.mk "Alpha Unit 1" 1] ∈
        build_flagged 0 [("Alpha Unit 1", 1)]) ∧
    ∃ u rest, (PlantEntry.mk "Alpha" 1 [UnitEntry.mk "Alpha Unit 1" 1]).units = u :: rest ∧
      u.zero_days = (PlantEntry.mk "Alpha" 1 [UnitEntry.mk "Alpha Unit 1" 1]).max_zero_days :=
  ⟨⟨by decide, by decide⟩,
    C10_first_unit_attains_max [("Alpha Unit 1", 1)] 0
      (PlantEntry.mk "Alpha" 1 [UnitEntry.mk "Alpha Unit 1" 1]) (by decide) (by decide)⟩

end NppZero
